import Mathlib

/-! Formal model of the clipboard-history capture core (src-tauri/src/lib.rs):
text normalization, the history cleaning pass, merge-or-insert upsert, the
poll dedup guard, favorite toggling, deletion, settings and history loading,
the content-addressed image blob store and storage migration. -/

/-- Unicode White_Space characters: the set tested by Rust's
char::is_whitespace, which str::trim strips from both ends. -/
def isRustWhitespace (c : Char) : Bool :=
  c = ' ' || c = '\t' || c = '\n' || c = '\x0b' || c = '\x0c' || c = '\r' ||
  c = '\u0085' || c = '\u00a0' || c = '\u1680' ||
  ('\u2000' ≤ c && c ≤ '\u200a') ||
  c = '\u2028' || c = '\u2029' || c = '\u202f' || c = '\u205f' || c = '\u3000'

/-- Left-to-right non-overlapping replacement of "\r\n" by "\n", the list
form of text.replace("\r\n", "\n") in normalize_text. -/
def replaceCRLF : List Char → List Char
  | [] => []
  | '\r' :: '\n' :: rest => '\n' :: replaceCRLF rest
  | c :: rest => c :: replaceCRLF rest

/-- Strip leading and trailing whitespace, as str::trim does. -/
def rustTrimList (l : List Char) : List Char :=
  ((l.dropWhile isRustWhitespace).reverse.dropWhile isRustWhitespace).reverse

/-- String form of rustTrimList. -/
def rustTrim (s : String) : String := String.mk (rustTrimList s.data)

/-- normalize_text from the source: unify CRLF line endings to LF, then trim
surrounding whitespace. -/
def normalize_text (s : String) : String :=
  rustTrim (String.mk (replaceCRLF s.data))

/-- ClipboardItem record, with timestamps as naturals (milliseconds). -/
structure ClipboardItem where
  id : String
  item_type : String
  text : Option String
  image_path : Option String
  image_preview_data_url : Option String
  content_hash : String
  is_favorite : Bool
  created_at : Nat
  updated_at : Nat
deriving DecidableEq, Repr

/-- Placeholder item used only as the default argument of List.getD at
indices that are proved in range. -/
def dummyItem : ClipboardItem :=
  ⟨"", "", none, none, none, "", false, 0, 0⟩

/-- Dedup key of an item: the (type, contentHash) pair. -/
def key (a : ClipboardItem) : String × String := (a.item_type, a.content_hash)

/-- Boolean key comparison used by the scan predicates in the source
(it.item_type == incoming.item_type && it.content_hash == incoming.content_hash). -/
def keyMatch (a b : ClipboardItem) : Bool :=
  a.item_type == b.item_type && a.content_hash == b.content_hash

/-- Fingerprint of an item, the "type:hash" string of the dedup guard. -/
def fingerprint (item : ClipboardItem) : String :=
  item.item_type ++ ":" ++ item.content_hash

/-- Index of the first element satisfying p, as Iterator::position does. -/
def position {α : Type} (p : α → Bool) : List α → Option Nat
  | [] => none
  | x :: xs => if p x then some 0 else (position p xs).map (· + 1)

/-- Ordering relation of the history: descending by updatedAt.  updRel a b
holds when a may come before b. -/
def updRel (a b : ClipboardItem) : Prop := b.updated_at ≤ a.updated_at

instance : DecidableRel updRel := fun a b => Nat.decLe b.updated_at a.updated_at

instance : IsTotal ClipboardItem updRel := ⟨fun a b => Nat.le_total b.updated_at a.updated_at⟩

instance : IsTrans ClipboardItem updRel := ⟨fun _ _ _ hab hbc => Nat.le_trans hbc hab⟩

instance : IsRefl ClipboardItem updRel := ⟨fun _ => Nat.le_refl _⟩

/-- Stable sort descending by updatedAt, modelling
items.sort_by(|a, b| b.updated_at.cmp(&a.updated_at)) (Rust's sort_by is a
stable sort, and stable sorts under the same comparator agree, so insertion
sort is an exact model). -/
def sortByUpdatedDesc (l : List ClipboardItem) : List ClipboardItem :=
  List.insertionSort updRel l

/-- The per-item normalization done at the top of the clean_history loop:
re-normalize the text of text items, leave everything else unchanged. -/
def clean_normalize_item (item : ClipboardItem) : ClipboardItem :=
  if item.item_type = "text" then
    { item with text := item.text.map normalize_text }
  else item

/-- One iteration of the clean_history walk: normalize the item, then either
merge it into the already-kept entry with the same key (keeping the
most-recently-updated one's fields and OR-ing isFavorite) or keep it. -/
def clean_step (cleaned : List ClipboardItem) (raw : ClipboardItem) : List ClipboardItem :=
  let item := clean_normalize_item raw
  match position (fun it => keyMatch it item) cleaned with
  | none => cleaned ++ [item]
  | some idx =>
    let prev := cleaned.getD idx dummyItem
    if prev.updated_at < item.updated_at then
      cleaned.set idx { item with updated_at := max item.updated_at prev.updated_at,
                                  is_favorite := item.is_favorite || prev.is_favorite }
    else
      cleaned.set idx { prev with is_favorite := prev.is_favorite || item.is_favorite }

/-- Truncation to the history limit: drop the tail when the length exceeds
the limit, as items.truncate(history_limit) guarded by the length check. -/
def history_truncate (limit : Nat) (l : List ClipboardItem) : List ClipboardItem :=
  if limit < l.length then l.take limit else l

/-- clean_history from the source: sort descending by updatedAt, walk the
list merging duplicate keys, re-sort and truncate to the limit. -/
def clean_history (items : List ClipboardItem) (history_limit : Nat) : List ClipboardItem :=
  let sorted := sortByUpdatedDesc items
  let cleaned := sorted.foldl clean_step []
  history_truncate history_limit (sortByUpdatedDesc cleaned)

/-- dedupe_and_upsert from the source: merge with the first entry with the
same key (refreshing updatedAt to now and taking the incoming preview when
present) and move it to the front, or insert the incoming item at the front;
then truncate to the limit. -/
def dedupe_and_upsert (items : List ClipboardItem) (incoming : ClipboardItem)
    (history_limit : Nat) (now : Nat) : List ClipboardItem :=
  let next := match position (fun it => keyMatch it incoming) items with
    | some idx =>
      let old := items.getD idx dummyItem
      { old with updated_at := now,
                 image_preview_data_url :=
                   incoming.image_preview_data_url.or old.image_preview_data_url } ::
        items.eraseIdx idx
    | none => incoming :: items
  history_truncate history_limit next

/-- Strip the transient preview field, as save_history does before writing. -/
def strip_preview (item : ClipboardItem) : ClipboardItem :=
  { item with image_preview_data_url := none }

/-- Persisted form of a history list: every preview stripped. -/
def save_strip (l : List ClipboardItem) : List ClipboardItem := l.map strip_preview

/-- Mutable state touched by a poll cycle: the dedup-guard fingerprint and
the persisted history file content. -/
structure PollState where
  last_capture_fingerprint : Option String
  history_file : List ClipboardItem
deriving DecidableEq, Repr

/-- One poll cycle, given the (at most one) candidate item the capture chain
produced from the current clipboard and the current time.  Mirrors
poll_clipboard after the capture chain: compare the candidate fingerprint
with the guard under the lock; on a match return nothing and change nothing;
otherwise update the guard, load (sort), upsert, and save (strip previews).
The Bool records whether the history file was written.  (The returned copy's
preview repopulation from the blob store is omitted: it does not affect the
stored state.) -/
def poll_clipboard (capture : Option ClipboardItem) (history_limit now : Nat)
    (st : PollState) : Option ClipboardItem × PollState × Bool :=
  match capture with
  | none => (none, st, false)
  | some item =>
    let fp := fingerprint item
    if st.last_capture_fingerprint = some fp then (none, st, false)
    else
      let items := dedupe_and_upsert (sortByUpdatedDesc st.history_file) item history_limit now
      (items.head?, ⟨some fp, save_strip items⟩, true)

/-- load_history_clean at the list level: the loaded (sorted) history run
through the clean pass, with previews cleared. -/
def load_history_clean (persisted : List ClipboardItem) (limit : Nat) : List ClipboardItem :=
  (clean_history (sortByUpdatedDesc persisted) limit).map strip_preview

/-- The toggle_favorite scan: flip the favorite flag and bump updatedAt of
the first item with the given id, returning the updated copy. -/
def toggle_first (id : String) (t : Nat) : List ClipboardItem → List ClipboardItem × Option ClipboardItem
  | [] => ([], none)
  | x :: xs =>
    if x.id = id then
      ({ x with is_favorite := !x.is_favorite, updated_at := t } :: xs,
       some { x with is_favorite := !x.is_favorite, updated_at := t })
    else
      let r := toggle_first id t xs
      (x :: r.1, r.2)

/-- Move the first item with the given id to the front, as the remove/insert
pair in toggle_favorite does after re-sorting. -/
def move_id_front (id : String) (l : List ClipboardItem) : List ClipboardItem :=
  match position (fun it => it.id == id) l with
  | some idx => l.getD idx dummyItem :: l.eraseIdx idx
  | none => l

/-- toggle_favorite at the list level: load-clean, flip the first matching
item, and when one was found re-sort, move it to the front and save;
otherwise leave the file untouched.  Returns (result, new file content,
whether the file was written). -/
def toggle_favorite (persisted : List ClipboardItem) (limit t : Nat) (id : String) :
    Option ClipboardItem × List ClipboardItem × Bool :=
  let items := load_history_clean persisted limit
  let r := toggle_first id t items
  match r.2 with
  | none => (none, persisted, false)
  | some changed =>
    (some changed, save_strip (move_id_front changed.id (sortByUpdatedDesc r.1)), true)

/-- delete_history_item at the list level: load-clean, fail when the id is
unknown, otherwise remove the item and save.  (Blob removal and guard
invalidation act on other state and are modelled separately.) -/
def delete_history_item (persisted : List ClipboardItem) (limit : Nat) (id : String) :
    Except String (List ClipboardItem) :=
  let items := load_history_clean persisted limit
  match position (fun it => it.id == id) items with
  | none => Except.error "未找到历史项"
  | some idx => Except.ok (save_strip (items.eraseIdx idx))

/-- AppSettings record. -/
structure AppSettings where
  poll_interval_ms : Nat
  history_limit : Nat
  storage_dir : String
  global_shortcut : String
  launch_at_startup : Bool
  always_on_top : Bool
deriving DecidableEq, Repr

/-- The Default implementation for AppSettings. -/
def default_settings : AppSettings :=
  ⟨800, 300, "", "Alt+Shift+V", false, false⟩

/-- Rust's clamp on naturals. -/
def clampNat (v lo hi : Nat) : Nat := min (max v lo) hi

/-- ASCII lower-casing of a character. -/
def asciiLower (c : Char) : Char :=
  if 'A' ≤ c && c ≤ 'Z' then Char.ofNat (c.toNat + 32) else c

/-- str::eq_ignore_ascii_case. -/
def eqIgnoreAsciiCase (a b : String) : Bool :=
  a.data.map asciiLower == b.data.map asciiLower

/-- sanitize_shortcut from the source: split on '+', trim each part, map
meta to Super and cmdorctrl to CommandOrControl, drop empty parts, and fall
back to the default accelerator when nothing remains. -/
def sanitize_shortcut (shortcut : String) : String :=
  let step : List String → String → List String := fun parts part =>
    let p := rustTrim part
    if eqIgnoreAsciiCase p "meta" then parts ++ ["Super"]
    else if eqIgnoreAsciiCase p "cmdorctrl" then parts ++ ["CommandOrControl"]
    else if p = "" then parts
    else parts ++ [p]
  let parts := (shortcut.splitOn "+").foldl step []
  if parts = [] then "Alt+Shift+V" else String.intercalate "+" parts

/-- normalize_settings from the source: clamp the interval and limit, trim
the storage dir, sanitize the shortcut with a final empty-string fallback. -/
def normalize_settings (s : AppSettings) : AppSettings :=
  let gs := sanitize_shortcut s.global_shortcut
  { poll_interval_ms := clampNat s.poll_interval_ms 300 5000,
    history_limit := clampNat s.history_limit 50 5000,
    storage_dir := rustTrim s.storage_dir,
    global_shortcut := if gs = "" then "Alt+Shift+V" else gs,
    launch_at_startup := s.launch_at_startup,
    always_on_top := s.always_on_top }

/-- Outcome of reading and parsing a persisted file: the file may be absent,
unreadable, readable but unparsable, or well formed. -/
inductive FileReadResult (α : Type) where
  | absent : FileReadResult α
  | unreadable : String → FileReadResult α
  | malformed : String → FileReadResult α
  | wellFormed : α → FileReadResult α

/-- load_history from the source: an absent file is the empty history, a
read or parse failure is propagated as a descriptive error, and parsed
content is sorted descending by updatedAt. -/
def load_history : FileReadResult (List ClipboardItem) → Except String (List ClipboardItem)
  | FileReadResult.absent => Except.ok []
  | FileReadResult.unreadable e => Except.error ("读取历史失败: " ++ e)
  | FileReadResult.malformed e => Except.error ("解析历史失败: " ++ e)
  | FileReadResult.wellFormed items => Except.ok (sortByUpdatedDesc items)

/-- load_settings from the source: an absent file yields the defaults, a
read failure is propagated, and a parse failure silently falls back to the
defaults (unwrap_or_default) before normalization. -/
def load_settings : FileReadResult AppSettings → Except String AppSettings
  | FileReadResult.absent => Except.ok default_settings
  | FileReadResult.unreadable e => Except.error ("读取设置失败: " ++ e)
  | FileReadResult.malformed _ => Except.ok (normalize_settings default_settings)
  | FileReadResult.wellFormed s => Except.ok (normalize_settings s)

/-- Name of the image blob subdirectory. -/
def IMAGE_DIR_NAME : String := "clipboard-images"

/-- Lookup of a file by name in a directory listing. -/
def findFile {α : Type} : List (String × α) → String → Option α
  | [], _ => none
  | f :: fs, name => if f.1 = name then some f.2 else findFile fs name

/-- image_item_from_png_bytes from the source, over a directory listing of
the blob store.  The hash (SHA-256 hex via the sha2 crate) and the base64
encoder are external library functions, modelled as abstract deterministic
functions.  The file is written only when the target name is absent. -/
def image_item_from_png_bytes (hash_fn : List Nat → String) (b64_fn : List Nat → String)
    (image_files : List (String × List Nat)) (png_bytes : List Nat) (now : Nat) :
    ClipboardItem × List (String × List Nat) :=
  let content_hash := hash_fn png_bytes
  let file_name := content_hash.take 24 ++ ".png"
  let relative_path := IMAGE_DIR_NAME ++ "/" ++ file_name
  let is_new_file := (findFile image_files file_name).isNone
  let files := if is_new_file then image_files ++ [(file_name, png_bytes)] else image_files
  let preview := if is_new_file then some ("data:image/png;base64," ++ b64_fn png_bytes)
    else none
  (⟨"img-" ++ toString now ++ "-" ++ content_hash.take 8, "image", none, some relative_path,
    preview, content_hash, false, now, now⟩, files)

/-- Contents of one storage root: the history file (if present) and the blob
subdirectory (if present) as a name-to-bytes listing. -/
structure RootState where
  history : Option String
  images : Option (List (String × String))
deriving DecidableEq

/-- The blob-copy loop of the migration: copy each source file whose name is
not yet present at the destination, in directory order. -/
def copy_missing_files (dest : List (String × String)) (src : List (String × String)) :
    List (String × String) :=
  src.foldl (fun acc f => if (findFile acc f.1).isSome then acc else acc ++ [f]) dest

/-- migrate_storage_if_needed from the source: a no-op when the roots are
equal; otherwise copy the history file only when the destination has none,
and copy blobs individually, skipping names already present.  The old root
is only read, never written. -/
def migrate_storage_if_needed (same_root : Bool) (old_root new_root : RootState) :
    RootState × RootState :=
  if same_root then (old_root, new_root)
  else
    let new_history := match old_root.history, new_root.history with
      | some h, none => some h
      | _, h => h
    let new_images := match old_root.images with
      | none => new_root.images
      | some files => some (copy_missing_files (new_root.images.getD []) files)
    (old_root, { history := new_history, images := new_images })

/-- At most one item per distinct (type, contentHash) key. -/
def distinctKeys (l : List ClipboardItem) : Prop :=
  l.Pairwise (fun a b => key a ≠ key b)

instance (l : List ClipboardItem) : Decidable (distinctKeys l) :=
  List.instDecidablePairwise l

/-- History file contents reachable from the empty history through the
mutating operations: poll upsert, favorite toggle, delete, clear.  (The
clean pass runs inside toggle and delete through load_history_clean.) -/
inductive ReachableHistory : List ClipboardItem → Prop where
  | empty : ReachableHistory []
  | poll (h : List ClipboardItem) (item : ClipboardItem) (limit t : Nat) :
      ReachableHistory h →
      ReachableHistory (save_strip (dedupe_and_upsert (sortByUpdatedDesc h) item limit t))
  | toggle (h : List ClipboardItem) (limit t : Nat) (id : String) :
      ReachableHistory h → ReachableHistory (toggle_favorite h limit t id).2.1
  | delete (h : List ClipboardItem) (limit : Nat) (id : String) (h2 : List ClipboardItem) :
      ReachableHistory h → delete_history_item h limit id = Except.ok h2 →
      ReachableHistory h2
  | clear (h : List ClipboardItem) : ReachableHistory h → ReachableHistory []

/-! Structural helper lemmas about position, list surgery and keys. -/

theorem position_eq_none {α : Type} (p : α → Bool) (l : List α)
    (h : ∀ x ∈ l, p x = false) : position p l = none := by
  induction l with
  | nil => rfl
  | cons x xs ih =>
    have hx : p x = false := h x (List.mem_cons_self x xs)
    simp [position, hx, ih fun y hy => h y (List.mem_cons_of_mem x hy)]

theorem forall_of_position_eq_none {α : Type} (p : α → Bool) (l : List α)
    (h : position p l = none) : ∀ x ∈ l, p x = false := by
  induction l with
  | nil => intro x hx; cases hx
  | cons x xs ih =>
    intro y hy
    by_cases hx : p x = true
    · simp [position, hx] at h
    · rcases List.mem_cons.mp hy with rfl | hy2
      · exact Bool.eq_false_iff.mpr hx
      · have hx' : p x = false := Bool.eq_false_iff.mpr hx
        simp [position, hx'] at h
        exact ih h y hy2

theorem position_some_split {α : Type} (p : α → Bool) (l : List α) (i : Nat)
    (h : position p l = some i) :
    ∃ pre x post, l = pre ++ x :: post ∧ pre.length = i ∧ p x = true ∧
      ∀ y ∈ pre, p y = false := by
  induction l generalizing i with
  | nil => cases h
  | cons a as ih =>
    by_cases ha : p a = true
    · refine ⟨[], a, as, rfl, ?_, ha, fun y hy => absurd hy (List.not_mem_nil y)⟩
      simp [position, ha] at h
      simp [h]
    · have ha' : p a = false := Bool.eq_false_iff.mpr ha
      simp [position, ha'] at h
      obtain ⟨j, hj, hji⟩ := h
      obtain ⟨pre, x, post, hsplit, hlen, hpx, hpre⟩ := ih j hj
      refine ⟨a :: pre, x, post, by simp [hsplit], by simp [hlen, hji], hpx, ?_⟩
      intro y hy
      rcases List.mem_cons.mp hy with rfl | hy2
      · exact ha'
      · exact hpre y hy2

theorem getD_append_length {α : Type} (pre : List α) (x : α) (post : List α) (d : α) :
    (pre ++ x :: post).getD pre.length d = x := by
  induction pre with
  | nil => rfl
  | cons a as ih => simpa using ih

theorem eraseIdx_append_length {α : Type} (pre : List α) (x : α) (post : List α) :
    (pre ++ x :: post).eraseIdx pre.length = pre ++ post := by
  induction pre with
  | nil => rfl
  | cons a as ih => simpa using ih

theorem set_append_length {α : Type} (pre : List α) (x v : α) (post : List α) :
    (pre ++ x :: post).set pre.length v = pre ++ v :: post := by
  induction pre with
  | nil => rfl
  | cons a as ih => simp [ih]

theorem keyMatch_iff (a b : ClipboardItem) : keyMatch a b = true ↔ key a = key b := by
  simp [keyMatch, key, Bool.and_eq_true, Prod.ext_iff]

theorem keyMatch_eq_false_iff (a b : ClipboardItem) : keyMatch a b = false ↔ key a ≠ key b := by
  rw [Bool.eq_false_iff, Ne, keyMatch_iff]

theorem pairwise_replace {α : Type} {R : α → α → Prop} {pre post : List α} {a b : α}
    (h : List.Pairwise R (pre ++ a :: post))
    (h1 : ∀ c, R c a → R c b) (h2 : ∀ c, R a c → R b c) :
    List.Pairwise R (pre ++ b :: post) := by
  rw [List.pairwise_append] at h ⊢
  obtain ⟨hpre, hcons, hcross⟩ := h
  rw [List.pairwise_cons] at hcons ⊢
  refine ⟨hpre, ⟨fun c hc => h2 c (hcons.1 c hc), hcons.2⟩, ?_⟩
  intro x hx y hy
  rcases List.mem_cons.mp hy with rfl | hy2
  · exact h1 x (hcross x hx a (List.mem_cons_self a post))
  · exact hcross x hx y (List.mem_cons.mpr (Or.inr hy2))

/-! Dedup-key distinctness and field-projection lemmas. -/

theorem distinctKeys_of_perm {l₁ l₂ : List ClipboardItem} (hp : l₁.Perm l₂)
    (h : distinctKeys l₁) : distinctKeys l₂ :=
  (hp.pairwise_iff fun hxy => fun e => hxy e.symm).mp h

theorem distinctKeys_iff_map {l : List ClipboardItem} :
    distinctKeys l ↔ (l.map key).Pairwise (· ≠ ·) := by
  rw [distinctKeys, List.pairwise_map]

theorem distinctKeys_of_map_key_eq {l₁ l₂ : List ClipboardItem}
    (hm : l₁.map key = l₂.map key) (h : distinctKeys l₁) : distinctKeys l₂ := by
  rw [distinctKeys_iff_map] at h ⊢
  rwa [hm] at h

theorem distinctKeys_sublist {l₁ l₂ : List ClipboardItem} (hs : l₁.Sublist l₂)
    (h : distinctKeys l₂) : distinctKeys l₁ :=
  List.Pairwise.sublist hs h

@[simp] theorem clean_normalize_item_id (a : ClipboardItem) :
    (clean_normalize_item a).id = a.id := by
  unfold clean_normalize_item; split <;> rfl

@[simp] theorem clean_normalize_item_type (a : ClipboardItem) :
    (clean_normalize_item a).item_type = a.item_type := by
  unfold clean_normalize_item; split <;> rfl

@[simp] theorem clean_normalize_item_hash (a : ClipboardItem) :
    (clean_normalize_item a).content_hash = a.content_hash := by
  unfold clean_normalize_item; split <;> rfl

@[simp] theorem clean_normalize_item_image_path (a : ClipboardItem) :
    (clean_normalize_item a).image_path = a.image_path := by
  unfold clean_normalize_item; split <;> rfl

@[simp] theorem clean_normalize_item_preview (a : ClipboardItem) :
    (clean_normalize_item a).image_preview_data_url = a.image_preview_data_url := by
  unfold clean_normalize_item; split <;> rfl

@[simp] theorem clean_normalize_item_fav (a : ClipboardItem) :
    (clean_normalize_item a).is_favorite = a.is_favorite := by
  unfold clean_normalize_item; split <;> rfl

@[simp] theorem clean_normalize_item_created (a : ClipboardItem) :
    (clean_normalize_item a).created_at = a.created_at := by
  unfold clean_normalize_item; split <;> rfl

@[simp] theorem clean_normalize_item_updated (a : ClipboardItem) :
    (clean_normalize_item a).updated_at = a.updated_at := by
  unfold clean_normalize_item; split <;> rfl

@[simp] theorem key_clean_normalize_item (a : ClipboardItem) :
    key (clean_normalize_item a) = key a := by
  simp [key]

@[simp] theorem key_strip_preview (a : ClipboardItem) : key (strip_preview a) = key a := rfl

theorem clean_normalize_item_text (a : ClipboardItem) :
    (clean_normalize_item a).text =
      if a.item_type = "text" then a.text.map normalize_text else a.text := by
  unfold clean_normalize_item; split <;> simp [*]

theorem distinctKeys_save_strip {l : List ClipboardItem} (h : distinctKeys l) :
    distinctKeys (save_strip l) := by
  refine @distinctKeys_of_map_key_eq l (save_strip l) ?_ h
  simp [save_strip, Function.comp]

theorem distinctKeys_sort {l : List ClipboardItem} (h : distinctKeys l) :
    distinctKeys (sortByUpdatedDesc l) :=
  distinctKeys_of_perm (List.perm_insertionSort updRel l).symm h

theorem history_truncate_eq_take (limit : Nat) (l : List ClipboardItem) :
    history_truncate limit l = l.take limit := by
  unfold history_truncate
  split
  · rfl
  · exact (List.take_of_length_le (Nat.le_of_not_lt (by assumption))).symm

theorem history_truncate_length_le (limit : Nat) (l : List ClipboardItem) :
    (history_truncate limit l).length ≤ limit := by
  rw [history_truncate_eq_take]
  simp [List.length_take]

theorem take_cons_take {α : Type} (n : Nat) (x : α) (l : List α) :
    (x :: l.take n).take n = (x :: l).take n := by
  cases n with
  | zero => rfl
  | succ m =>
    simp [List.take_succ_cons, List.take_take, Nat.min_eq_left (Nat.le_succ m)]

/-! Invariants of the clean pass. -/

theorem clean_step_of_position_none (cleaned : List ClipboardItem) (raw : ClipboardItem)
    (h : position (fun it => keyMatch it (clean_normalize_item raw)) cleaned = none) :
    clean_step cleaned raw = cleaned ++ [clean_normalize_item raw] := by
  simp only [clean_step, h]

theorem distinctKeys_replace {pre post : List ClipboardItem} {a b : ClipboardItem}
    (hk : key b = key a) (h : distinctKeys (pre ++ a :: post)) :
    distinctKeys (pre ++ b :: post) :=
  pairwise_replace h (fun c hc => by rw [hk]; exact hc) (fun c hc => by rw [hk]; exact hc)

theorem distinctKeys_clean_step (cleaned : List ClipboardItem) (raw : ClipboardItem)
    (h : distinctKeys cleaned) : distinctKeys (clean_step cleaned raw) := by
  rcases hpos : position (fun it => keyMatch it (clean_normalize_item raw)) cleaned with _ | idx
  · rw [clean_step_of_position_none cleaned raw hpos]
    have hall := forall_of_position_eq_none _ _ hpos
    rw [distinctKeys, List.pairwise_append]
    exact ⟨h, List.pairwise_singleton _ _,
      fun a ha b hb => by
        rcases List.mem_singleton.mp hb with rfl
        exact (keyMatch_eq_false_iff a _).mp (hall a ha)⟩
  · obtain ⟨pre, x, post, hsplit, hlen, hpx, hpre⟩ := position_some_split _ _ _ hpos
    have hgetD : cleaned.getD idx dummyItem = x := by
      rw [hsplit, ← hlen, getD_append_length]
    have hkey : key x = key (clean_normalize_item raw) := (keyMatch_iff _ _).mp hpx
    simp only [clean_step, hpos, hgetD]
    subst hsplit
    split
    · rw [← hlen, set_append_length]
      refine distinctKeys_replace ?_ h
      exact hkey.symm
    · rw [← hlen, set_append_length]
      refine distinctKeys_replace ?_ h
      rfl

theorem distinctKeys_clean_fold (l acc : List ClipboardItem) (h : distinctKeys acc) :
    distinctKeys (l.foldl clean_step acc) := by
  induction l generalizing acc with
  | nil => exact h
  | cons x xs ih => exact ih _ (distinctKeys_clean_step _ _ h)

theorem distinctKeys_clean_history (items : List ClipboardItem) (limit : Nat) :
    distinctKeys (clean_history items limit) := by
  unfold clean_history
  rw [history_truncate_eq_take]
  refine distinctKeys_sublist (List.take_sublist _ _) (distinctKeys_sort ?_)
  exact distinctKeys_clean_fold _ _ List.Pairwise.nil

theorem clean_normalize_item_set_fav_upd (a : ClipboardItem) (b : Bool) (u : Nat)
    (h : clean_normalize_item a = a) :
    clean_normalize_item { a with is_favorite := b, updated_at := u } =
      { a with is_favorite := b, updated_at := u } := by
  by_cases ht : a.item_type = "text"
  · have htext : a.text.map normalize_text = a.text := by
      have := congrArg ClipboardItem.text h
      rwa [clean_normalize_item_text, if_pos ht] at this
    simp [clean_normalize_item, ht, htext]
  · simp [clean_normalize_item, ht]

theorem clean_step_fix (cleaned : List ClipboardItem) (raw : ClipboardItem)
    (hacc : ∀ c ∈ cleaned, clean_normalize_item c = c)
    (hraw : clean_normalize_item (clean_normalize_item raw) = clean_normalize_item raw) :
    ∀ c ∈ clean_step cleaned raw, clean_normalize_item c = c := by
  rcases hpos : position (fun it => keyMatch it (clean_normalize_item raw)) cleaned with _ | idx
  · rw [clean_step_of_position_none cleaned raw hpos]
    intro c hc
    rcases List.mem_append.mp hc with hc1 | hc2
    · exact hacc c hc1
    · rcases List.mem_singleton.mp hc2 with rfl
      exact hraw
  · obtain ⟨pre, x, post, hsplit, hlen, hpx, hpre⟩ := position_some_split _ _ _ hpos
    have hgetD : cleaned.getD idx dummyItem = x := by
      rw [hsplit, ← hlen, getD_append_length]
    simp only [clean_step, hpos, hgetD]
    have hmem : ∀ c, c ∈ pre ∨ c ∈ post → clean_normalize_item c = c := by
      intro c hc
      refine hacc c ?_
      rw [hsplit]
      rcases hc with hc | hc
      · exact List.mem_append.mpr (Or.inl hc)
      · exact List.mem_append.mpr (Or.inr (List.mem_cons_of_mem x hc))
    have hx : clean_normalize_item x = x := by
      refine hacc x ?_
      rw [hsplit]
      exact List.mem_append.mpr (Or.inr (List.mem_cons_self x post))
    subst hsplit
    split
    · rw [← hlen, set_append_length]
      intro c hc
      rcases List.mem_append.mp hc with hc1 | hc2
      · exact hmem c (Or.inl hc1)
      · rcases List.mem_cons.mp hc2 with rfl | hc3
        · exact clean_normalize_item_set_fav_upd (clean_normalize_item raw) _ _ hraw
        · exact hmem c (Or.inr hc3)
    · rw [← hlen, set_append_length]
      intro c hc
      rcases List.mem_append.mp hc with hc1 | hc2
      · exact hmem c (Or.inl hc1)
      · rcases List.mem_cons.mp hc2 with rfl | hc3
        · exact clean_normalize_item_set_fav_upd x _ x.updated_at hx
        · exact hmem c (Or.inr hc3)

theorem clean_fold_fix (l acc : List ClipboardItem)
    (hacc : ∀ c ∈ acc, clean_normalize_item c = c)
    (hl : ∀ x ∈ l, clean_normalize_item (clean_normalize_item x) = clean_normalize_item x) :
    ∀ c ∈ l.foldl clean_step acc, clean_normalize_item c = c := by
  induction l generalizing acc with
  | nil => exact hacc
  | cons x xs ih =>
    refine ih _ (clean_step_fix acc x hacc (hl x (List.mem_cons_self x xs))) ?_
    exact fun y hy => hl y (List.mem_cons_of_mem x hy)

theorem clean_history_fix (items : List ClipboardItem) (limit : Nat)
    (h : ∀ x ∈ items, clean_normalize_item (clean_normalize_item x) = clean_normalize_item x) :
    ∀ c ∈ clean_history items limit, clean_normalize_item c = c := by
  intro c hc
  unfold clean_history at hc
  rw [history_truncate_eq_take] at hc
  have hc2 := (List.mem_insertionSort updRel).mp ((List.take_sublist _ _).subset hc)
  refine clean_fold_fix _ [] (fun y hy => absurd hy (List.not_mem_nil y)) ?_ c hc2
  intro x hx
  exact h x ((List.mem_insertionSort updRel).mp hx)

theorem clean_fold_id (l acc : List ClipboardItem)
    (hk : distinctKeys (acc ++ l))
    (hfix : ∀ x ∈ l, clean_normalize_item x = x) :
    l.foldl clean_step acc = acc ++ l := by
  induction l generalizing acc with
  | nil => simp
  | cons x xs ih =>
    have hxfix : clean_normalize_item x = x := hfix x (List.mem_cons_self x xs)
    have hnone : position (fun it => keyMatch it (clean_normalize_item x)) acc = none := by
      refine position_eq_none _ _ fun c hc => ?_
      rw [hxfix, keyMatch_eq_false_iff]
      have := (List.pairwise_append.mp hk).2.2 c hc x (List.mem_cons_self x xs)
      exact this
    have hstep : clean_step acc x = acc ++ [x] := by
      rw [clean_step_of_position_none acc x hnone, hxfix]
    rw [List.foldl_cons, hstep]
    have hk2 : distinctKeys ((acc ++ [x]) ++ xs) := by
      rwa [List.append_assoc, List.singleton_append]
    rw [ih (acc ++ [x]) hk2 fun y hy => hfix y (List.mem_cons_of_mem x hy)]
    simp

theorem clean_history_sorted (items : List ClipboardItem) (limit : Nat) :
    List.Sorted updRel (clean_history items limit) := by
  unfold clean_history
  rw [history_truncate_eq_take]
  exact List.Pairwise.sublist (List.take_sublist _ _) (List.sorted_insertionSort updRel _)

theorem clean_history_length_le (items : List ClipboardItem) (limit : Nat) :
    (clean_history items limit).length ≤ limit :=
  history_truncate_length_le _ _

theorem clean_step_pred {Q : ClipboardItem → Prop}
    (hmod : ∀ c b u, Q c → Q { c with is_favorite := b, updated_at := u })
    (cleaned : List ClipboardItem) (raw : ClipboardItem)
    (hacc : ∀ c ∈ cleaned, Q c) (hraw : Q (clean_normalize_item raw)) :
    ∀ y ∈ clean_step cleaned raw, Q y := by
  rcases hpos : position (fun it => keyMatch it (clean_normalize_item raw)) cleaned with _ | idx
  · rw [clean_step_of_position_none cleaned raw hpos]
    intro y hy
    rcases List.mem_append.mp hy with hy1 | hy2
    · exact hacc y hy1
    · rcases List.mem_singleton.mp hy2 with rfl
      exact hraw
  · obtain ⟨pre, x, post, hsplit, hlen, hpx, hpre⟩ := position_some_split _ _ _ hpos
    have hgetD : cleaned.getD idx dummyItem = x := by
      rw [hsplit, ← hlen, getD_append_length]
    simp only [clean_step, hpos, hgetD]
    have hmem : ∀ c, c ∈ pre ∨ c ∈ post → Q c := by
      intro c hc
      refine hacc c ?_
      rw [hsplit]
      rcases hc with hc | hc
      · exact List.mem_append.mpr (Or.inl hc)
      · exact List.mem_append.mpr (Or.inr (List.mem_cons_of_mem x hc))
    have hx : Q x := by
      refine hacc x ?_
      rw [hsplit]
      exact List.mem_append.mpr (Or.inr (List.mem_cons_self x post))
    subst hsplit
    split
    · rw [← hlen, set_append_length]
      intro y hy
      rcases List.mem_append.mp hy with hy1 | hy2
      · exact hmem y (Or.inl hy1)
      · rcases List.mem_cons.mp hy2 with rfl | hy3
        · exact hmod _ _ _ hraw
        · exact hmem y (Or.inr hy3)
    · rw [← hlen, set_append_length]
      intro y hy
      rcases List.mem_append.mp hy with hy1 | hy2
      · exact hmem y (Or.inl hy1)
      · rcases List.mem_cons.mp hy2 with rfl | hy3
        · exact hmod _ _ x.updated_at hx
        · exact hmem y (Or.inr hy3)

theorem clean_fold_pred {Q : ClipboardItem → Prop}
    (hmod : ∀ c b u, Q c → Q { c with is_favorite := b, updated_at := u })
    (l acc : List ClipboardItem)
    (hacc : ∀ c ∈ acc, Q c) (hl : ∀ x ∈ l, Q (clean_normalize_item x)) :
    ∀ y ∈ l.foldl clean_step acc, Q y := by
  induction l generalizing acc with
  | nil => exact hacc
  | cons x xs ih =>
    refine ih _ (clean_step_pred hmod acc x hacc (hl x (List.mem_cons_self x xs))) ?_
    exact fun y hy => hl y (List.mem_cons_of_mem x hy)

theorem clean_history_pred {Q : ClipboardItem → Prop}
    (hmod : ∀ c b u, Q c → Q { c with is_favorite := b, updated_at := u })
    (items : List ClipboardItem) (limit : Nat)
    (h : ∀ x ∈ items, Q (clean_normalize_item x)) :
    ∀ y ∈ clean_history items limit, Q y := by
  intro y hy
  unfold clean_history at hy
  rw [history_truncate_eq_take] at hy
  have hy2 := (List.mem_insertionSort updRel).mp ((List.take_sublist _ _).subset hy)
  refine clean_fold_pred hmod _ [] (fun c hc => absurd hc (List.not_mem_nil c)) ?_ y hy2
  intro x hx
  exact h x ((List.mem_insertionSort updRel).mp hx)

/-! Lemmas about the upsert. -/

theorem dedupe_and_upsert_of_position_none (items : List ClipboardItem)
    (incoming : ClipboardItem) (limit t : Nat)
    (h : position (fun it => keyMatch it incoming) items = none) :
    dedupe_and_upsert items incoming limit t = history_truncate limit (incoming :: items) := by
  simp only [dedupe_and_upsert, h]

theorem dedupe_and_upsert_of_position_some (items : List ClipboardItem)
    (incoming : ClipboardItem) (limit t i : Nat) (old : ClipboardItem)
    (h : position (fun it => keyMatch it incoming) items = some i)
    (hold : items.getD i dummyItem = old) :
    dedupe_and_upsert items incoming limit t =
      history_truncate limit
        ({ old with
           updated_at := t,
           image_preview_data_url :=
             incoming.image_preview_data_url.or old.image_preview_data_url } ::
          items.eraseIdx i) := by
  simp only [dedupe_and_upsert, h, hold]

theorem dedupe_and_upsert_distinct (items : List ClipboardItem) (incoming : ClipboardItem)
    (limit t : Nat) (h : distinctKeys items) :
    distinctKeys (dedupe_and_upsert items incoming limit t) := by
  rcases hpos : position (fun it => keyMatch it incoming) items with _ | i
  · rw [dedupe_and_upsert_of_position_none _ _ _ _ hpos, history_truncate_eq_take]
    refine distinctKeys_sublist (List.take_sublist _ _) ?_
    rw [distinctKeys, List.pairwise_cons]
    refine ⟨fun b hb => ?_, h⟩
    have := (keyMatch_eq_false_iff b incoming).mp (forall_of_position_eq_none _ _ hpos b hb)
    exact fun e => this e.symm
  · obtain ⟨pre, x, post, hsplit, hlen, hpx, hpre⟩ := position_some_split _ _ _ hpos
    have hgetD : items.getD i dummyItem = x := by
      rw [hsplit, ← hlen, getD_append_length]
    have herase : items.eraseIdx i = pre ++ post := by
      rw [hsplit, ← hlen, eraseIdx_append_length]
    rw [dedupe_and_upsert_of_position_some _ _ _ _ _ _ hpos hgetD, history_truncate_eq_take,
      herase]
    refine distinctKeys_sublist (List.take_sublist _ _) ?_
    rw [hsplit, distinctKeys] at h
    rw [List.pairwise_append] at h
    obtain ⟨hpre2, hcons, hcross⟩ := h
    rw [List.pairwise_cons] at hcons
    rw [distinctKeys, List.pairwise_cons]
    constructor
    · intro b hb
      have hkx : key { x with
          updated_at := t,
          image_preview_data_url :=
            incoming.image_preview_data_url.or x.image_preview_data_url } = key x := rfl
      rw [hkx]
      rcases List.mem_append.mp hb with hb1 | hb2
      · exact fun e => (hcross b hb1 x (List.mem_cons_self x post)) e.symm
      · exact hcons.1 b hb2
    · rw [List.pairwise_append]
      exact ⟨hpre2, hcons.2, fun a ha b hb => hcross a ha b (List.mem_cons_of_mem x hb)⟩

theorem upsert_fold_aux (N t : Nat) :
    ∀ (l processed : List ClipboardItem), distinctKeys (processed ++ l) →
      l.foldl (fun acc x => dedupe_and_upsert acc x N t) (processed.reverse.take N) =
        (processed ++ l).reverse.take N := by
  intro l
  induction l with
  | nil => intro processed _; simp
  | cons x xs ih =>
    intro processed hd
    have hnone : position (fun it => keyMatch it x) (processed.reverse.take N) = none := by
      refine position_eq_none _ _ fun y hy => ?_
      have hyp : y ∈ processed := List.mem_reverse.mp ((List.take_sublist _ _).subset hy)
      rw [keyMatch_eq_false_iff]
      exact (List.pairwise_append.mp hd).2.2 y hyp x (List.mem_cons_self x xs)
    have hstep : dedupe_and_upsert (processed.reverse.take N) x N t =
        (processed ++ [x]).reverse.take N := by
      rw [dedupe_and_upsert_of_position_none _ _ _ _ hnone, history_truncate_eq_take,
        take_cons_take]
      simp
    rw [List.foldl_cons, hstep]
    have hd2 : distinctKeys ((processed ++ [x]) ++ xs) := by
      rwa [List.append_assoc, List.singleton_append]
    rw [ih (processed ++ [x]) hd2]
    simp

/-! Lemmas about toggle, delete and the loaded-clean history. -/

theorem distinctKeys_load_history_clean (persisted : List ClipboardItem) (limit : Nat) :
    distinctKeys (load_history_clean persisted limit) :=
  distinctKeys_save_strip (distinctKeys_clean_history _ _)

theorem toggle_first_map_key (id : String) (t : Nat) (l : List ClipboardItem) :
    (toggle_first id t l).1.map key = l.map key := by
  induction l with
  | nil => rfl
  | cons x xs ih =>
    by_cases hx : x.id = id
    · simp [toggle_first, hx, key]
    · simp [toggle_first, hx, ih]

theorem toggle_first_not_found (id : String) (t : Nat) (l : List ClipboardItem)
    (h : ∀ x ∈ l, x.id ≠ id) : toggle_first id t l = (l, none) := by
  induction l with
  | nil => rfl
  | cons x xs ih =>
    have hx : ¬ x.id = id := h x (List.mem_cons_self x xs)
    simp [toggle_first, hx, ih fun y hy => h y (List.mem_cons_of_mem x hy)]

theorem move_id_front_perm (id : String) (l : List ClipboardItem) :
    (move_id_front id l).Perm l := by
  rcases hpos : position (fun it => it.id == id) l with _ | idx
  · simp only [move_id_front, hpos]
    exact List.Perm.refl l
  · obtain ⟨pre, x, post, hsplit, hlen, hpx, hpre⟩ := position_some_split _ _ _ hpos
    have hgetD : l.getD idx dummyItem = x := by
      rw [hsplit, ← hlen, getD_append_length]
    have herase : l.eraseIdx idx = pre ++ post := by
      rw [hsplit, ← hlen, eraseIdx_append_length]
    simp only [move_id_front, hpos, hgetD, herase]
    rw [hsplit]
    exact List.perm_middle.symm

/-! Lemmas about the blob-store directory listing and the migration copy loop. -/

theorem findFile_append_left {α : Type} (l₁ l₂ : List (String × α)) (name : String) (c : α)
    (h : findFile l₁ name = some c) : findFile (l₁ ++ l₂) name = some c := by
  induction l₁ with
  | nil => cases h
  | cons f fs ih =>
    by_cases hf : f.1 = name
    · simp [findFile, hf] at h ⊢
      exact h
    · simp [findFile, hf] at h ⊢
      exact ih h

theorem findFile_append_right {α : Type} (l₁ l₂ : List (String × α)) (name : String)
    (h : findFile l₁ name = none) : findFile (l₁ ++ l₂) name = findFile l₂ name := by
  induction l₁ with
  | nil => rfl
  | cons f fs ih =>
    by_cases hf : f.1 = name
    · simp [findFile, hf] at h
    · simp [findFile, hf] at h ⊢
      exact ih h

theorem copy_missing_files_preserves (src dest : List (String × String))
    (name : String) (c : String) (h : findFile dest name = some c) :
    findFile (copy_missing_files dest src) name = some c := by
  induction src generalizing dest with
  | nil => exact h
  | cons f fs ih =>
    unfold copy_missing_files
    rw [List.foldl_cons]
    by_cases hf : (findFile dest f.1).isSome
    · simp only [hf, if_pos]
      exact ih dest h
    · simp only [hf, if_neg, Bool.false_eq_true, not_false_iff]
      refine ih (dest ++ [f]) ?_
      exact findFile_append_left _ _ _ _ h

theorem copy_missing_files_copies (src : List (String × String)) (name : String) (c : String)
    (hnodup : (src.map Prod.fst).Nodup) (hsrc : findFile src name = some c) :
    ∀ dest, findFile dest name = none →
      findFile (copy_missing_files dest src) name = some c := by
  induction src with
  | nil => cases hsrc
  | cons f fs ih =>
    intro dest hdest
    unfold copy_missing_files
    rw [List.foldl_cons]
    by_cases hf : f.1 = name
    · have hc : f.2 = c := by
        simpa [findFile, hf] using hsrc
      have hdf : (findFile dest f.1).isSome = false := by
        rw [hf, hdest]; rfl
      simp only [hdf, Bool.false_eq_true, if_neg, not_false_iff]
      refine copy_missing_files_preserves fs (dest ++ [f]) name c ?_
      rw [findFile_append_right _ _ _ hdest]
      simp [findFile, hf, hc]
    · have hsrc2 : findFile fs name = some c := by
        simpa [findFile, hf] using hsrc
      have hnodup2 : (fs.map Prod.fst).Nodup := (List.nodup_cons.mp hnodup).2
      by_cases hdf : (findFile dest f.1).isSome
      · simp only [hdf, if_pos]
        exact ih hnodup2 hsrc2 dest hdest
      · simp only [hdf, Bool.false_eq_true, if_neg, not_false_iff]
        refine ih hnodup2 hsrc2 (dest ++ [f]) ?_
        rw [findFile_append_right _ _ _ hdest]
        simp [findFile, hf]

/-! Claim theorems. -/

/-- C1: dedup-guard idempotence of poll.  When the clipboard is unchanged
between two consecutive poll calls (the capture chain is deterministic in
the clipboard state, so the two candidates carry the same fingerprint), the
second call returns nothing, leaves the guard and the persisted history file
exactly as the first call left them, and performs no history write. -/
theorem claim_c1_poll_dedup_idempotent (cap1 cap2 : Option ClipboardItem)
    (limit t1 t2 : Nat) (st : PollState)
    (hfp : cap1.map fingerprint = cap2.map fingerprint) :
    (poll_clipboard cap2 limit t2 (poll_clipboard cap1 limit t1 st).2.1).1 = none ∧
    (poll_clipboard cap2 limit t2 (poll_clipboard cap1 limit t1 st).2.1).2.1 =
      (poll_clipboard cap1 limit t1 st).2.1 ∧
    (poll_clipboard cap2 limit t2 (poll_clipboard cap1 limit t1 st).2.1).2.2 = false := by
  cases cap1 with
  | none =>
    cases cap2 with
    | none => simp [poll_clipboard]
    | some i2 => simp at hfp
  | some i1 =>
    cases cap2 with
    | none => simp at hfp
    | some i2 =>
      simp only [Option.map_some'] at hfp
      have hfp2 : fingerprint i1 = fingerprint i2 := by
        injection hfp
      by_cases hg : st.last_capture_fingerprint = some (fingerprint i1)
      · simp [poll_clipboard, hg, hfp2.symm]
      · simp [poll_clipboard, hg, hfp2.symm]

/-- C1 witness: pushing the same text content through two consecutive polls
from the empty state, the second poll yields nothing. -/
theorem claim_c1_witness :
    ((some ⟨"t1", "text", some "hi", none, none, "abc", false, 5, 5⟩ : Option ClipboardItem).map
        fingerprint =
      (some ⟨"t2", "text", some "hi", none, none, "abc", false, 7, 7⟩ : Option ClipboardItem).map
        fingerprint) ∧
    (poll_clipboard (some ⟨"t2", "text", some "hi", none, none, "abc", false, 7, 7⟩) 300 7
        (poll_clipboard (some ⟨"t1", "text", some "hi", none, none, "abc", false, 5, 5⟩) 300 5
            ⟨none, []⟩).2.1).1 = none := by
  refine ⟨by decide, ?_⟩
  exact (claim_c1_poll_dedup_idempotent _ _ 300 5 7 ⟨none, []⟩ (by decide)).1

/-- C2: the History Store upsert.  When an item with the incoming key exists
at first position i, the result is that record with updatedAt refreshed to
the current time and the preview taken from the incoming item when present
(id, createdAt, isFavorite, text and imagePath retained), moved to the
front of the list with the old occurrence removed, truncated to the limit;
when no key matches, the incoming item is inserted at the front and the list
truncated; and folding the upsert over N + k (k > 0) items with pairwise
distinct keys starting from the empty history leaves exactly the N most
recently inserted items, newest first. -/
theorem claim_c2_upsert_spec :
    (∀ (items : List ClipboardItem) (incoming : ClipboardItem) (limit t i : Nat)
       (old : ClipboardItem),
       position (fun it => keyMatch it incoming) items = some i →
       items.getD i dummyItem = old →
       ∃ merged,
         dedupe_and_upsert items incoming limit t =
           history_truncate limit (merged :: items.eraseIdx i) ∧
         merged.id = old.id ∧ merged.created_at = old.created_at ∧
         merged.is_favorite = old.is_favorite ∧ merged.text = old.text ∧
         merged.image_path = old.image_path ∧ merged.updated_at = t ∧
         merged.image_preview_data_url =
           incoming.image_preview_data_url.or old.image_preview_data_url) ∧
    (∀ (items : List ClipboardItem) (incoming : ClipboardItem) (limit t : Nat),
       position (fun it => keyMatch it incoming) items = none →
       dedupe_and_upsert items incoming limit t = history_truncate limit (incoming :: items)) ∧
    (∀ (l : List ClipboardItem) (N k t : Nat),
       distinctKeys l → l.length = N + k → 0 < k →
       l.foldl (fun acc x => dedupe_and_upsert acc x N t) [] = l.reverse.take N ∧
       (l.foldl (fun acc x => dedupe_and_upsert acc x N t) []).length = N) := by
  refine ⟨?_, ?_, ?_⟩
  · intro items incoming limit t i old hpos hold
    exact ⟨_, dedupe_and_upsert_of_position_some items incoming limit t i old hpos hold,
      rfl, rfl, rfl, rfl, rfl, rfl, rfl⟩
  · intro items incoming limit t hpos
    exact dedupe_and_upsert_of_position_none items incoming limit t hpos
  · intro l N k t hdist hlen hk
    have haux := upsert_fold_aux N t l [] (by simpa using hdist)
    simp only [List.reverse_nil, List.take_nil, List.nil_append] at haux
    refine ⟨haux, ?_⟩
    rw [haux]
    simp [List.length_take, hlen, Nat.min_eq_left (Nat.le_add_right N k)]

/-- C2 witness: a merge at index 0 retains the old record's identity fields,
and inserting three distinct items with limit 2 keeps the last two. -/
theorem claim_c2_witness :
    (position (fun it => keyMatch it ⟨"n", "text", some "b", none, none, "h1", false, 9, 9⟩)
        [⟨"o", "text", some "a", none, none, "h1", true, 1, 1⟩] = some 0 ∧
      ∃ merged,
        dedupe_and_upsert [⟨"o", "text", some "a", none, none, "h1", true, 1, 1⟩]
            ⟨"n", "text", some "b", none, none, "h1", false, 9, 9⟩ 300 9 =
          history_truncate 300
            (merged :: [⟨"o", "text", some "a", none, none, "h1", true, 1, 1⟩].eraseIdx 0) ∧
        merged.id = "o" ∧ merged.created_at = 1 ∧ merged.is_favorite = true ∧
        merged.text = some "a" ∧ merged.image_path = none ∧ merged.updated_at = 9 ∧
        merged.image_preview_data_url = none) ∧
    (distinctKeys
        [⟨"a", "text", some "a", none, none, "ha", false, 1, 1⟩,
         ⟨"b", "text", some "b", none, none, "hb", false, 2, 2⟩,
         ⟨"c", "text", some "c", none, none, "hc", false, 3, 3⟩] ∧
      [⟨"a", "text", some "a", none, none, "ha", false, 1, 1⟩,
         ⟨"b", "text", some "b", none, none, "hb", false, 2, 2⟩,
         ⟨"c", "text", some "c", none, none, "hc", false, 3, 3⟩].foldl
          (fun acc x => dedupe_and_upsert acc x 2 4) [] =
        [⟨"c", "text", some "c", none, none, "hc", false, 3, 3⟩,
         ⟨"b", "text", some "b", none, none, "hb", false, 2, 2⟩]) := by
  constructor
  · refine ⟨by decide, ?_⟩
    obtain ⟨merged, h1, h2, h3, h4, h5, h6, h7, h8⟩ :=
      claim_c2_upsert_spec.1 [⟨"o", "text", some "a", none, none, "h1", true, 1, 1⟩]
        ⟨"n", "text", some "b", none, none, "h1", false, 9, 9⟩ 300 9 0
        ⟨"o", "text", some "a", none, none, "h1", true, 1, 1⟩ (by decide) (by decide)
    exact ⟨merged, h1, h2, h3, h4, h5, h6, h7, h8⟩
  · refine ⟨by decide, ?_⟩
    have := (claim_c2_upsert_spec.2.2
      [⟨"a", "text", some "a", none, none, "ha", false, 1, 1⟩,
       ⟨"b", "text", some "b", none, none, "hb", false, 2, 2⟩,
       ⟨"c", "text", some "c", none, none, "hc", false, 3, 3⟩] 2 1 4
      (by decide) (by decide) (by decide)).1
    simpa using this

/-- Two same-key items reconciled by the clean pass, sorted case: the kept
entry is the more recent record with isFavorite OR-ed across both. -/
theorem clean_pair (x y : ClipboardItem) (limit : Nat) (hk : key x = key y)
    (hu : y.updated_at ≤ x.updated_at) (hl : 1 ≤ limit) :
    clean_history [x, y] limit =
      [{ clean_normalize_item x with
         is_favorite := x.is_favorite || y.is_favorite }] := by
  have hsort : sortByUpdatedDesc [x, y] = [x, y] := by
    simp [sortByUpdatedDesc, List.insertionSort, List.orderedInsert, updRel, hu]
  have hstep1 : clean_step [] x = [clean_normalize_item x] := by
    simp [clean_step, position]
  have hmatch : keyMatch (clean_normalize_item x) (clean_normalize_item y) = true := by
    rw [keyMatch_iff]
    simp [hk]
  have hpos : position (fun it => keyMatch it (clean_normalize_item y))
      [clean_normalize_item x] = some 0 := by
    simp [position, hmatch]
  have hnotlt : ¬ (clean_normalize_item x).updated_at < (clean_normalize_item y).updated_at := by
    simp [Nat.not_lt, hu]
  have hstep2 : clean_step [clean_normalize_item x] y =
      [{ clean_normalize_item x with
         is_favorite := x.is_favorite || y.is_favorite }] := by
    simp only [clean_step, hpos]
    rw [if_neg (by simpa using hnotlt)]
    simp [List.set]
  simp only [clean_history]
  rw [hsort]
  rw [show ([x, y].foldl clean_step []) = clean_step (clean_step [] x) y from rfl]
  rw [hstep1, hstep2]
  have hsingle : ∀ v : ClipboardItem, sortByUpdatedDesc [v] = [v] := by
    intro v
    simp [sortByUpdatedDesc, List.insertionSort, List.orderedInsert]
  rw [hsingle]
  simp [history_truncate, Nat.not_lt.mpr hl]

/-- Two same-key items reconciled by the clean pass, unsorted case. -/
theorem clean_pair_lt (x y : ClipboardItem) (limit : Nat) (hk : key x = key y)
    (hu : x.updated_at < y.updated_at) (hl : 1 ≤ limit) :
    clean_history [x, y] limit =
      [{ clean_normalize_item y with
         is_favorite := y.is_favorite || x.is_favorite }] := by
  have hsort : sortByUpdatedDesc [x, y] = [y, x] := by
    simp [sortByUpdatedDesc, List.insertionSort, List.orderedInsert, updRel,
      Nat.not_le.mpr hu]
  have hstep1 : clean_step [] y = [clean_normalize_item y] := by
    simp [clean_step, position]
  have hmatch : keyMatch (clean_normalize_item y) (clean_normalize_item x) = true := by
    rw [keyMatch_iff]
    simp [hk]
  have hpos : position (fun it => keyMatch it (clean_normalize_item x))
      [clean_normalize_item y] = some 0 := by
    simp [position, hmatch]
  have hnotlt : ¬ (clean_normalize_item y).updated_at < (clean_normalize_item x).updated_at := by
    simp [Nat.not_lt, Nat.le_of_lt hu]
  have hstep2 : clean_step [clean_normalize_item y] x =
      [{ clean_normalize_item y with
         is_favorite := y.is_favorite || x.is_favorite }] := by
    simp only [clean_step, hpos]
    rw [if_neg (by simpa using hnotlt)]
    simp [List.set]
  simp only [clean_history]
  rw [hsort]
  rw [show ([y, x].foldl clean_step []) = clean_step (clean_step [] y) x from rfl]
  rw [hstep1, hstep2]
  have hsingle : ∀ v : ClipboardItem, sortByUpdatedDesc [v] = [v] := by
    intro v
    simp [sortByUpdatedDesc, List.insertionSort, List.orderedInsert]
  rw [hsingle]
  simp [history_truncate, Nat.not_lt.mpr hl]

/-- C3: merge correctness.  Two items with equal (type, contentHash) but
different isFavorite/updatedAt reconciled by the clean pass leave exactly
one entry whose isFavorite is the OR of both and whose updatedAt is the
maximum of both; and upserting a freshly captured item (whose isFavorite is
false and whose updatedAt is the upsert time, at or after the stored item's
updatedAt) onto a stored same-key item leaves exactly one entry with the
same OR / maximum shape. -/
theorem claim_c3_merge_correctness :
    (∀ (a b : ClipboardItem) (limit : Nat), key a = key b → 1 ≤ limit →
      (clean_history [a, b] limit).length = 1 ∧
      ((clean_history [a, b] limit).getD 0 dummyItem).is_favorite =
        (a.is_favorite || b.is_favorite) ∧
      ((clean_history [a, b] limit).getD 0 dummyItem).updated_at =
        max a.updated_at b.updated_at) ∧
    (∀ (old incoming : ClipboardItem) (limit t : Nat), key old = key incoming →
      incoming.is_favorite = false → incoming.updated_at = t → old.updated_at ≤ t →
      1 ≤ limit →
      (dedupe_and_upsert [old] incoming limit t).length = 1 ∧
      ((dedupe_and_upsert [old] incoming limit t).getD 0 dummyItem).is_favorite =
        (old.is_favorite || incoming.is_favorite) ∧
      ((dedupe_and_upsert [old] incoming limit t).getD 0 dummyItem).updated_at =
        max old.updated_at incoming.updated_at) := by
  constructor
  · intro a b limit hk hl
    by_cases hu : b.updated_at ≤ a.updated_at
    · rw [clean_pair a b limit hk hu hl]
      refine ⟨rfl, by simp, ?_⟩
      simp [Nat.max_eq_left hu]
    · rw [clean_pair_lt a b limit hk (Nat.lt_of_not_le hu) hl]
      refine ⟨rfl, by simp [Bool.or_comm], ?_⟩
      simp [Nat.max_eq_right (Nat.le_of_lt (Nat.lt_of_not_le hu))]
  · intro old incoming limit t hk hfav hupd hle hl
    have hm : keyMatch old incoming = true := (keyMatch_iff _ _).mpr hk
    have hpos : position (fun it => keyMatch it incoming) [old] = some 0 := by
      simp [position, hm]
    rw [dedupe_and_upsert_of_position_some [old] incoming limit t 0 old hpos rfl]
    have htr : ∀ v : ClipboardItem, history_truncate limit [v] = [v] := by
      intro v
      simp [history_truncate, Nat.not_lt.mpr hl]
    rw [show ([old] : List ClipboardItem).eraseIdx 0 = [] from rfl, htr]
    refine ⟨rfl, by simp [hfav], ?_⟩
    have hmax : max old.updated_at incoming.updated_at = t := by
      rw [hupd]
      exact Nat.max_eq_right hle
    simp [hmax]

/-- C3 witness: a favorited older item and an unfavorited newer item with
the same key merge to one favorited entry carrying the larger updatedAt,
both through the clean pass and through the upsert. -/
theorem claim_c3_witness :
    (key (⟨"a", "text", some "x", none, none, "h", true, 1, 3⟩ : ClipboardItem) =
        key (⟨"b", "text", some "x", none, none, "h", false, 2, 7⟩ : ClipboardItem) ∧
      (clean_history [⟨"a", "text", some "x", none, none, "h", true, 1, 3⟩,
          ⟨"b", "text", some "x", none, none, "h", false, 2, 7⟩] 50).length = 1 ∧
      ((clean_history [⟨"a", "text", some "x", none, none, "h", true, 1, 3⟩,
          ⟨"b", "text", some "x", none, none, "h", false, 2, 7⟩] 50).getD 0
            dummyItem).is_favorite = (true || false) ∧
      ((clean_history [⟨"a", "text", some "x", none, none, "h", true, 1, 3⟩,
          ⟨"b", "text", some "x", none, none, "h", false, 2, 7⟩] 50).getD 0
            dummyItem).updated_at = max 3 7) ∧
    ((dedupe_and_upsert [⟨"o", "text", some "x", none, none, "h", true, 1, 3⟩]
        ⟨"n", "text", some "x", none, none, "h", false, 9, 9⟩ 50 9).length = 1 ∧
      ((dedupe_and_upsert [⟨"o", "text", some "x", none, none, "h", true, 1, 3⟩]
          ⟨"n", "text", some "x", none, none, "h", false, 9, 9⟩ 50 9).getD 0
            dummyItem).is_favorite = (true || false) ∧
      ((dedupe_and_upsert [⟨"o", "text", some "x", none, none, "h", true, 1, 3⟩]
          ⟨"n", "text", some "x", none, none, "h", false, 9, 9⟩ 50 9).getD 0
            dummyItem).updated_at = max 3 9) := by
  constructor
  · refine ⟨by decide, ?_⟩
    exact claim_c3_merge_correctness.1 ⟨"a", "text", some "x", none, none, "h", true, 1, 3⟩
      ⟨"b", "text", some "x", none, none, "h", false, 2, 7⟩ 50 (by decide) (by decide)
  · exact claim_c3_merge_correctness.2 ⟨"o", "text", some "x", none, none, "h", true, 1, 3⟩
      ⟨"n", "text", some "x", none, none, "h", false, 9, 9⟩ 50 9 (by decide) (by decide)
      (by decide) (by decide) (by decide)
/-- C4: dedup-key uniqueness invariant.  Every history file state reachable
from the empty history by any sequence of the mutating operations (upsert
from a poll capture, the clean pass run by toggle and delete, favorite
toggle, delete, clear) contains at most one ClipboardItem per distinct
(type, contentHash) pair, independently of item ids. -/
theorem claim_c4 (h : List ClipboardItem) (hr : ReachableHistory h) :
    distinctKeys h := by
  induction hr with
  | empty => exact List.Pairwise.nil
  | poll h0 item limit t _ ih =>
    exact distinctKeys_save_strip (dedupe_and_upsert_distinct _ _ _ _ (distinctKeys_sort ih))
  | toggle h0 limit t id _ ih =>
    unfold toggle_favorite
    rcases htf : (toggle_first id t (load_history_clean h0 limit)).2 with _ | changed
    · simpa [htf] using ih
    · simp only [htf]
      refine distinctKeys_save_strip ?_
      refine distinctKeys_of_perm (move_id_front_perm changed.id _).symm ?_
      refine distinctKeys_sort ?_
      refine distinctKeys_of_map_key_eq (toggle_first_map_key id t _).symm ?_
      exact distinctKeys_load_history_clean h0 limit
  | delete h0 limit id h2 _ hdel ih =>
    rcases hpos : position (fun it => it.id == id) (load_history_clean h0 limit) with _ | idx
    · simp [delete_history_item, hpos] at hdel
    · simp only [delete_history_item, hpos, Except.ok.injEq] at hdel
      subst hdel
      refine distinctKeys_save_strip ?_
      exact distinctKeys_sublist (List.eraseIdx_sublist _ _)
        (distinctKeys_load_history_clean h0 limit)
  | clear h0 _ _ => exact List.Pairwise.nil

/-- C4 witness: the state left by one poll upsert on the empty history is
reachable and has distinct dedup keys. -/
theorem claim_c4_witness :
    ReachableHistory (save_strip (dedupe_and_upsert (sortByUpdatedDesc [])
        ⟨"a", "text", some "x", none, none, "h", false, 1, 1⟩ 300 1)) ∧
    distinctKeys (save_strip (dedupe_and_upsert (sortByUpdatedDesc [])
        ⟨"a", "text", some "x", none, none, "h", false, 1, 1⟩ 300 1)) :=
  ⟨ReachableHistory.poll [] _ 300 1 ReachableHistory.empty,
   claim_c4 _ (ReachableHistory.poll [] _ 300 1 ReachableHistory.empty)⟩

/-- C5 counterexample: the clean pass is not idempotent as stated, because
normalize_text is not idempotent — on the text "a\r\r\nb" one run of
replace("\r\n", "\n") leaves "a\r\nb", whose second normalization gives
"a\nb", so a second clean changes the stored text again. -/
theorem claim_c5_counterexample :
    clean_history (clean_history
        [⟨"id1", "text", some "a\r\r\nb", none, none, "h1", false, 1, 1⟩] 50) 50 ≠
      clean_history [⟨"id1", "text", some "a\r\r\nb", none, none, "h1", false, 1, 1⟩] 50 := by
  decide

/-- C5 (amended): the clean pass is idempotent on every input whose items
are unchanged by a second text normalization (normalize_text applied to an
already-normalized text is the identity on it); the counterexample above
shows the proviso cannot be dropped. -/
theorem claim_c5_clean_idempotent (xs : List ClipboardItem) (limit : Nat)
    (hfix : ∀ x ∈ xs, clean_normalize_item (clean_normalize_item x) = clean_normalize_item x) :
    clean_history (clean_history xs limit) limit = clean_history xs limit := by
  have hsorted : List.Sorted updRel (clean_history xs limit) := clean_history_sorted xs limit
  have hdist : distinctKeys (clean_history xs limit) := distinctKeys_clean_history xs limit
  have hfixc : ∀ c ∈ clean_history xs limit, clean_normalize_item c = c :=
    clean_history_fix xs limit hfix
  have hlen : (clean_history xs limit).length ≤ limit := clean_history_length_le xs limit
  have hs1 : sortByUpdatedDesc (clean_history xs limit) = clean_history xs limit := by
    simpa [sortByUpdatedDesc] using List.Sorted.insertionSort_eq hsorted
  have hfold : (clean_history xs limit).foldl clean_step [] = clean_history xs limit := by
    have := clean_fold_id (clean_history xs limit) [] (by simpa using hdist) hfixc
    simpa using this
  conv_lhs => rw [clean_history]
  rw [hs1, hfold, hs1]
  simp [history_truncate, Nat.not_lt.mpr hlen]

/-- C5 witness: a history with an already-normalized text is a fixed point
of a second clean. -/
theorem claim_c5_witness :
    (∀ x ∈ [(⟨"w", "text", some "hello", none, none, "hw", false, 1, 1⟩ : ClipboardItem)],
      clean_normalize_item (clean_normalize_item x) = clean_normalize_item x) ∧
    clean_history (clean_history
        [(⟨"w", "text", some "hello", none, none, "hw", false, 1, 1⟩ : ClipboardItem)] 50) 50 =
      clean_history
        [(⟨"w", "text", some "hello", none, none, "hw", false, 1, 1⟩ : ClipboardItem)] 50 :=
  ⟨by decide, claim_c5_clean_idempotent _ 50 (by decide)⟩

/-- C6: corrupt-persisted-data asymmetry.  A history file that exists but
fails to parse yields a descriptive propagated error while an absent file
yields the empty history; a settings file that fails to parse silently
falls back to the default settings, normalized. -/
theorem claim_c6_corrupt_asymmetry :
    (∀ e, load_history (FileReadResult.malformed e) = Except.error ("解析历史失败: " ++ e)) ∧
    load_history FileReadResult.absent = Except.ok [] ∧
    (∀ e, load_settings (FileReadResult.malformed e) =
      Except.ok (normalize_settings default_settings)) :=
  ⟨fun _ => rfl, rfl, fun _ => rfl⟩

/-- C7: unknown-id asymmetry.  For an id absent from the loaded clean
history, toggleFavorite succeeds with no item and no write and leaves the
persisted file untouched, while deleteItem fails with a descriptive error
(and, returning before its save, also leaves the file untouched). -/
theorem claim_c7_unknown_id (persisted : List ClipboardItem) (limit t : Nat) (id : String)
    (h : ∀ it ∈ load_history_clean persisted limit, it.id ≠ id) :
    toggle_favorite persisted limit t id = (none, persisted, false) ∧
    delete_history_item persisted limit id = Except.error "未找到历史项" := by
  have htf : toggle_first id t (load_history_clean persisted limit) =
      (load_history_clean persisted limit, none) := toggle_first_not_found _ _ _ h
  have hpos : position (fun it => it.id == id) (load_history_clean persisted limit) = none := by
    refine position_eq_none _ _ fun x hx => ?_
    simpa using h x hx
  constructor
  · simp [toggle_favorite, htf]
  · simp [delete_history_item, hpos]

/-- C7 witness: on a one-item history, toggling and deleting an unknown id
behave asymmetrically as claimed. -/
theorem claim_c7_witness :
    (∀ it ∈ load_history_clean
        [(⟨"a", "text", some "x", none, none, "h", false, 1, 1⟩ : ClipboardItem)] 50,
      it.id ≠ "nonexistent") ∧
    toggle_favorite [(⟨"a", "text", some "x", none, none, "h", false, 1, 1⟩ : ClipboardItem)]
        50 9 "nonexistent" =
      (none, [(⟨"a", "text", some "x", none, none, "h", false, 1, 1⟩ : ClipboardItem)], false) ∧
    delete_history_item [(⟨"a", "text", some "x", none, none, "h", false, 1, 1⟩ : ClipboardItem)]
        50 "nonexistent" = Except.error "未找到历史项" := by
  refine ⟨by decide, ?_, ?_⟩
  · exact (claim_c7_unknown_id _ 50 9 "nonexistent" (by decide)).1
  · exact (claim_c7_unknown_id _ 50 9 "nonexistent" (by decide)).2

/-- Storing bytes whose blob name is already present writes nothing. -/
theorem image_store_second_noop (hash_fn b64_fn : List Nat → String)
    (fs1 : List (String × List Nat)) (png : List Nat) (t : Nat)
    (h : ∃ c, findFile fs1 ((hash_fn png).take 24 ++ ".png") = some c) :
    (image_item_from_png_bytes hash_fn b64_fn fs1 png t).2 = fs1 := by
  obtain ⟨c, hc⟩ := h
  simp [image_item_from_png_bytes, hc]

/-- C8: blob-store content-addressing.  Storing a PNG byte sequence yields
the relative path imageSubdir/(first 24 hex characters of its hash).png
(the hash slice presupposes a hash of at least 24 characters, which SHA-256
hex always satisfies); storing the same bytes again yields the same path
and leaves the blob directory exactly as it was, skipping the write. -/
theorem claim_c8_content_addressing (hash_fn b64_fn : List Nat → String)
    (fs0 : List (String × List Nat)) (png : List Nat) (t1 t2 : Nat)
    (_hlen : 24 ≤ (hash_fn png).length) :
    (image_item_from_png_bytes hash_fn b64_fn fs0 png t1).1.image_path =
      some (IMAGE_DIR_NAME ++ "/" ++ ((hash_fn png).take 24 ++ ".png")) ∧
    (image_item_from_png_bytes hash_fn b64_fn
        (image_item_from_png_bytes hash_fn b64_fn fs0 png t1).2 png t2).1.image_path =
      (image_item_from_png_bytes hash_fn b64_fn fs0 png t1).1.image_path ∧
    (image_item_from_png_bytes hash_fn b64_fn
        (image_item_from_png_bytes hash_fn b64_fn fs0 png t1).2 png t2).2 =
      (image_item_from_png_bytes hash_fn b64_fn fs0 png t1).2 := by
  have hsome : ∃ c, findFile (image_item_from_png_bytes hash_fn b64_fn fs0 png t1).2
      ((hash_fn png).take 24 ++ ".png") = some c := by
    rcases hf : findFile fs0 ((hash_fn png).take 24 ++ ".png") with _ | c
    · refine ⟨png, ?_⟩
      simp only [image_item_from_png_bytes, hf, Option.isNone_none, if_true]
      rw [findFile_append_right _ _ _ hf]
      simp [findFile]
    · refine ⟨c, ?_⟩
      simp only [image_item_from_png_bytes, hf, Option.isNone_some]
      simp [hf]
  exact ⟨rfl, rfl, image_store_second_noop hash_fn b64_fn _ png t2 hsome⟩

/-- C8 witness: storing the bytes 1,2,3 twice under a fixed 64-character
hash leaves the blob directory unchanged after the second store. -/
theorem claim_c8_witness :
    24 ≤ ((fun _ : List Nat =>
      "0123456789abcdef0123456789abcdef0123456789abcdef0123456789abcdef") [1, 2, 3]).length ∧
    (image_item_from_png_bytes
        (fun _ => "0123456789abcdef0123456789abcdef0123456789abcdef0123456789abcdef")
        (fun _ => "") ((image_item_from_png_bytes
          (fun _ => "0123456789abcdef0123456789abcdef0123456789abcdef0123456789abcdef")
          (fun _ => "") [] [1, 2, 3] 5).2) [1, 2, 3] 6).2 =
      (image_item_from_png_bytes
        (fun _ => "0123456789abcdef0123456789abcdef0123456789abcdef0123456789abcdef")
        (fun _ => "") [] [1, 2, 3] 5).2 := by
  refine ⟨by decide, ?_⟩
  exact (claim_c8_content_addressing _ _ [] [1, 2, 3] 5 6 (by decide)).2.2

/-- C9: storage migration safety.  Migration is the identity when the roots
are equal; otherwise the old root is returned untouched, an existing
destination history file is never overwritten, a missing one receives a
copy of the old history, every blob already at the destination keeps its
content, and every old blob whose name is absent at the destination is
copied there. -/
theorem claim_c9_migration_safety :
    (∀ o n : RootState, migrate_storage_if_needed true o n = (o, n)) ∧
    (∀ o n : RootState, (migrate_storage_if_needed false o n).1 = o) ∧
    (∀ (o n : RootState) (h : String), n.history = some h →
      (migrate_storage_if_needed false o n).2.history = some h) ∧
    (∀ (o n : RootState) (h : String), n.history = none → o.history = some h →
      (migrate_storage_if_needed false o n).2.history = some h) ∧
    (∀ (o n : RootState) (name c : String),
      findFile (n.images.getD []) name = some c →
      findFile ((migrate_storage_if_needed false o n).2.images.getD []) name = some c) ∧
    (∀ (o n : RootState) (name c : String) (files : List (String × String)),
      o.images = some files → (files.map Prod.fst).Nodup →
      findFile files name = some c → findFile (n.images.getD []) name = none →
      findFile ((migrate_storage_if_needed false o n).2.images.getD []) name = some c) := by
  refine ⟨?_, ?_, ?_, ?_, ?_, ?_⟩
  · intro o n
    simp [migrate_storage_if_needed]
  · intro o n
    simp [migrate_storage_if_needed]
  · intro o n h hn
    rcases o.history with _ | h0 <;> simp [migrate_storage_if_needed, hn]
  · intro o n h hn ho
    simp [migrate_storage_if_needed, hn, ho]
  · intro o n name c hfind
    rcases ho : o.images with _ | files
    · simpa [migrate_storage_if_needed, ho] using hfind
    · simp only [migrate_storage_if_needed, ho, if_neg, Bool.false_eq_true, not_false_iff]
      exact copy_missing_files_preserves files _ name c hfind
  · intro o n name c files ho hnodup hsrc hdest
    simp only [migrate_storage_if_needed, ho, if_neg, Bool.false_eq_true, not_false_iff]
    exact copy_missing_files_copies files name c hnodup hsrc _ hdest

/-- C9 witness: migrating a root holding a history file and one blob into an
empty root copies both. -/
theorem claim_c9_witness :
    ((⟨none, some []⟩ : RootState).history = none ∧
      (⟨some "H", some [("aaa.png", "A")]⟩ : RootState).history = some "H" ∧
      (migrate_storage_if_needed false ⟨some "H", some [("aaa.png", "A")]⟩
          ⟨none, some []⟩).2.history = some "H") ∧
    (findFile [("aaa.png", "A")] "aaa.png" = some "A" ∧
      findFile ((⟨none, some []⟩ : RootState).images.getD []) "aaa.png" = none ∧
      findFile ((migrate_storage_if_needed false ⟨some "H", some [("aaa.png", "A")]⟩
          ⟨none, some []⟩).2.images.getD []) "aaa.png" = some "A") := by
  refine ⟨⟨rfl, rfl, ?_⟩, ⟨rfl, rfl, ?_⟩⟩
  · exact claim_c9_migration_safety.2.2.2.1 _ _ "H" rfl rfl
  · exact claim_c9_migration_safety.2.2.2.2.2 _ _ "aaa.png" "A" [("aaa.png", "A")] rfl
      (by decide) (by decide) (by decide)

/-- C10: frame property of the clean pass.  Every item kept by clean_history
descends from an input item whose id, createdAt, imagePath, contentHash and
type it retains unchanged; only the text is re-normalized, and the content
hash is never recomputed from that text. -/
theorem claim_c10_clean_frame (xs : List ClipboardItem) (limit : Nat) :
    ∀ y ∈ clean_history xs limit, ∃ x ∈ xs,
      y.id = x.id ∧ y.created_at = x.created_at ∧ y.image_path = x.image_path ∧
      y.content_hash = x.content_hash ∧ y.item_type = x.item_type ∧
      y.text = (clean_normalize_item x).text := by
  refine clean_history_pred ?_ xs limit ?_
  · intro c b u hc
    obtain ⟨x, hx, h1, h2, h3, h4, h5, h6⟩ := hc
    exact ⟨x, hx, h1, h2, h3, h4, h5, h6⟩
  · intro x hx
    exact ⟨x, hx, by simp, by simp, by simp, by simp, by simp, rfl⟩

/-- C10 witness: cleaning a one-item history re-normalizes the text while
retaining the identity fields and the stored hash. -/
theorem claim_c10_witness :
    (⟨"a", "text", some "hi", none, none, "h", false, 1, 1⟩ : ClipboardItem) ∈
      clean_history [⟨"a", "text", some " hi ", none, none, "h", false, 1, 1⟩] 50 ∧
    ∃ x ∈ [(⟨"a", "text", some " hi ", none, none, "h", false, 1, 1⟩ : ClipboardItem)],
      (⟨"a", "text", some "hi", none, none, "h", false, 1, 1⟩ : ClipboardItem).id = x.id ∧
      (⟨"a", "text", some "hi", none, none, "h", false, 1, 1⟩ : ClipboardItem).created_at =
        x.created_at ∧
      (⟨"a", "text", some "hi", none, none, "h", false, 1, 1⟩ : ClipboardItem).image_path =
        x.image_path ∧
      (⟨"a", "text", some "hi", none, none, "h", false, 1, 1⟩ : ClipboardItem).content_hash =
        x.content_hash ∧
      (⟨"a", "text", some "hi", none, none, "h", false, 1, 1⟩ : ClipboardItem).item_type =
        x.item_type ∧
      (⟨"a", "text", some "hi", none, none, "h", false, 1, 1⟩ : ClipboardItem).text =
        (clean_normalize_item x).text :=
  ⟨by decide, claim_c10_clean_frame _ 50 _ (by decide)⟩
